import Mathlib

/-!
Shallow embedding of the `svelte-title` title-state engine
(store `src/lib/stores/title.ts`, v1.2.0, and the `Title.svelte`
component's registration effects), together with proofs of the
specification's claims about it.

The JavaScript `Map<number, string>` backing the registry is modelled as an
insertion-ordered association list `List (Int × String)`; `Map.set` replaces
in place when the key is present and appends otherwise, `Map.delete` filters,
exactly as in the source. JavaScript's stable `Array.prototype.sort` with the
numeric comparators `a.level - b.level` / `b.level - a.level` is modelled by
`List.insertionSort` (stable) with the corresponding total preorders.
-/

namespace SvelteTitle

/-- Special level value for override mode (`export const OVERRIDE_LEVEL = -1`). -/
def OVERRIDE_LEVEL : Int := -1

/-- A single part of the hierarchical title (`interface TitlePart`). -/
structure TitlePart where
  level : Int
  title : String
deriving Repr, DecidableEq

/-- Ascending comparison used by `syncMapToStore`'s `(a, b) => a.level - b.level`. -/
def levelLE (a b : TitlePart) : Prop := a.level ≤ b.level

/-- Descending comparison used by `buildTitle`'s `(a, b) => b.level - a.level`. -/
def levelGE (a b : TitlePart) : Prop := b.level ≤ a.level

/-- Strict ascending order on levels; two parts at distinct levels sorted
ascending are related by it. -/
def levelLT (a b : TitlePart) : Prop := a.level < b.level

instance : DecidableRel levelLE := fun a b => inferInstanceAs (Decidable (a.level ≤ b.level))

instance : DecidableRel levelGE := fun a b => inferInstanceAs (Decidable (b.level ≤ a.level))

instance : IsTotal TitlePart levelLE := ⟨fun a b => Int.le_total a.level b.level⟩

instance : IsTrans TitlePart levelLE := ⟨fun _ _ _ h h' => le_trans h h'⟩

instance : IsTotal TitlePart levelGE := ⟨fun a b => Int.le_total b.level a.level⟩

instance : IsTrans TitlePart levelGE := ⟨fun _ _ _ h h' => le_trans h' h⟩

instance : IsAntisymm TitlePart levelLT :=
  ⟨fun _ _ h h' => absurd (lt_trans h h') (lt_irrefl _)⟩

/-- Keys of the insertion-ordered map (the levels currently registered). -/
def mapKeys (m : List (Int × String)) : List Int := m.map Prod.fst

/-- First-match lookup, as `Map.get` on an insertion-ordered map. -/
def mapGet (k : Int) : List (Int × String) → Option String
  | [] => none
  | (k', v) :: m => if k' = k then some v else mapGet k m

/-- `Map.set`: replace in place when the key exists, append otherwise. -/
def mapSet (k : Int) (v : String) (m : List (Int × String)) : List (Int × String) :=
  if k ∈ mapKeys m then m.map (fun p => if p.1 = k then (k, v) else p)
  else m ++ [(k, v)]

/-- `Map.delete`: drop every entry at the key. -/
def mapDelete (k : Int) (m : List (Int × String)) : List (Int × String) :=
  m.filter (fun p => decide (p.1 ≠ k))

/-- The map invariant JavaScript's `Map` provides for free: one entry per key. -/
def keysNodup (m : List (Int × String)) : Prop := (mapKeys m).Nodup

instance (m : List (Int × String)) : Decidable (keysNodup m) :=
  inferInstanceAs (Decidable (mapKeys m).Nodup)

/-- `syncMapToStore`: convert the map's entries to an array of parts and sort
it ascending by level with the stable comparator `a.level - b.level`. -/
def syncMapToStore (m : List (Int × String)) : List TitlePart :=
  List.insertionSort levelLE (m.map (fun p => ⟨p.1, p.2⟩))

/-- Modelled from the spec: the `DEFAULT_SEPARATOR` constant exported by
v1.2.0 of the store is not among the provided source files; per the README it
is the default bullet-and-spaces separator used to initialise
`titleSeparator`. -/
def DEFAULT_SEPARATOR : String := " • "

/-- The registry's process-wide state: the internal `titlePartsMap`, the
published `titleParts` store value, the `titleSeparator` store value and the
module-level `renderCounter`. -/
structure Registry where
  titlePartsMap : List (Int × String)
  titleParts : List TitlePart
  titleSeparator : String
  renderCounter : Int
deriving Repr, DecidableEq

/-- The state at module initialisation: empty map, empty store array,
bullet separator, counter `0`. -/
def initialRegistry : Registry :=
  { titlePartsMap := [], titleParts := [], titleSeparator := " • ", renderCounter := 0 }

/-- `getNextLevel()`: return the current counter, then increment it. -/
def getNextLevel (r : Registry) : Int × Registry :=
  (r.renderCounter, { r with renderCounter := r.renderCounter + 1 })

/-- The levels currently in use, excluding the override sentinel, as scanned
by `resetLevelCounter`. -/
def activeLevels (r : Registry) : List Int :=
  (mapKeys r.titlePartsMap).filter (fun l => decide (l ≠ OVERRIDE_LEVEL))

/-- `resetLevelCounter()`: find the highest non-sentinel level in use
(`Math.max(...levels)`, `-1` when none) and continue after it. -/
def resetLevelCounter (r : Registry) : Registry :=
  let levels := activeLevels r
  let maxLevel : Int :=
    match levels with
    | [] => -1
    | a :: rest => rest.foldl max a
  { r with renderCounter := maxLevel + 1 }

/-- `setSeparator`: reject the empty string, otherwise store the value. -/
def setSeparator (separator : String) (r : Registry) : Except String Registry :=
  if separator = "" then
    Except.error "Invalid separator: empty string is not allowed."
  else
    Except.ok { r with titleSeparator := separator }

/-- `setTitlePart(level, title)`: write into the map, then republish the
sorted array. -/
def setTitlePart (level : Int) (title : String) (r : Registry) : Registry :=
  let m := mapSet level title r.titlePartsMap
  { r with titlePartsMap := m, titleParts := syncMapToStore m }

/-- `removeTitlePart(level)`: delete from the map, then republish the sorted
array. -/
def removeTitlePart (level : Int) (r : Registry) : Registry :=
  let m := mapDelete level r.titlePartsMap
  { r with titlePartsMap := m, titleParts := syncMapToStore m }

/-- Modelled from the spec: `clearTitleState()` is documented in the README
and the v1.2.0 CHANGELOG but its implementation file is not among the
provided sources. Per the spec it empties the part map, resets the separator
to the default and resets the counter to `0`. -/
def clearTitleState (_r : Registry) : Registry :=
  { titlePartsMap := [], titleParts := [],
    titleSeparator := DEFAULT_SEPARATOR, renderCounter := 0 }

/-- A dynamic JavaScript value as far as `isValidTitlePart` inspects it:
a number, a string, or anything else. -/
inductive JsVal where
  | num (n : Int)
  | str (s : String)
  | other
deriving Repr, DecidableEq

/-- One element of the array handed to `buildTitle`: an object with optional
`level` and `title` fields, or a non-object value. -/
inductive RawEntry where
  | obj (level : Option JsVal) (title : Option JsVal)
  | nonObj
deriving Repr, DecidableEq

/-- The typed part a raw entry denotes, when it is structurally valid. -/
def asTitlePart : RawEntry → Option TitlePart
  | .obj (some (.num n)) (some (.str s)) => some ⟨n, s⟩
  | _ => none

/-- `isValidTitlePart`: an object with a numeric `level` and a string
`title`. -/
def isValidTitlePart (e : RawEntry) : Bool :=
  (asTitlePart e).isSome

/-- The argument of `buildTitle` before the `Array.isArray` check. -/
inductive BuildInput where
  | arr (parts : List RawEntry)
  | notArr
deriving Repr, DecidableEq

/-- The cascade computation over structurally valid parts: first valid entry
at the override sentinel wins outright; otherwise the non-negative levels are
sorted descending and their titles joined with the separator. -/
def buildTitleTyped (parts : List TitlePart) (sep : String) : String :=
  match parts.find? (fun p => decide (p.level = OVERRIDE_LEVEL)) with
  | some p => p.title
  | none =>
    let normalParts := parts.filter (fun p => decide (0 ≤ p.level))
    let sortedParts := List.insertionSort levelGE normalParts
    String.intercalate sep (sortedParts.map TitlePart.title)

/-- `buildTitle(parts, separator)`: reject non-array input, drop structurally
invalid entries, then run the cascade computation on the valid parts. -/
def buildTitle (input : BuildInput) (sep : String) : Except String String :=
  match input with
  | .notArr => Except.error "buildTitle: parts must be an array"
  | .arr rawParts =>
    let validParts := rawParts.filterMap asTitlePart
    Except.ok (buildTitleTyped validParts sep)

/-- The entries `buildTitle` warns about (`console.warn` per invalid entry);
empty when the input is rejected before the filter runs. -/
def buildDiagnostics : BuildInput → List RawEntry
  | .notArr => []
  | .arr rawParts => rawParts.filter (fun e => !isValidTitlePart e)

/-- The cascade the root Binding publishes to the rendering sink: it
subscribes to `titleParts` and the separator and recomputes
`buildTitle(parts, currentSeparator)` on every change. -/
def cascade (r : Registry) : String :=
  buildTitleTyped r.titleParts r.titleSeparator

/-- The title-registration `$effect` of `Title.svelte` (v1.2.0), acting on the
registry: first the override-transition block (remove the part registered
under the previous mode's key when `override` changed), then the write —
empty titles remove, non-empty titles set, under the current mode's key.
Returns the updated `previousOverride` state together with the registry. -/
def bindingTitleEffect (hierarchyLevel : Int) (override : Bool) (title : String)
    (previousOverride : Bool) (r : Registry) : Bool × Registry :=
  let r1 :=
    if previousOverride ≠ override then
      if previousOverride then removeTitlePart OVERRIDE_LEVEL r
      else removeTitlePart hierarchyLevel r
    else r
  let r2 :=
    if title = "" then
      if override then removeTitlePart OVERRIDE_LEVEL r1
      else removeTitlePart hierarchyLevel r1
    else
      if override then setTitlePart OVERRIDE_LEVEL title r1
      else setTitlePart hierarchyLevel title r1
  (override, r2)

/-- Registry states reachable from the initial state through the public
operations. -/
inductive Reachable : Registry → Prop
  | init : Reachable initialRegistry
  | set (L : Int) (t : String) {r : Registry} :
      Reachable r → Reachable (setTitlePart L t r)
  | remove (L : Int) {r : Registry} :
      Reachable r → Reachable (removeTitlePart L r)
  | next {r : Registry} : Reachable r → Reachable (getNextLevel r).2
  | reset {r : Registry} : Reachable r → Reachable (resetLevelCounter r)
  | sep (s : String) {r r' : Registry} :
      Reachable r → setSeparator s r = Except.ok r' → Reachable r'
  | clear {r : Registry} : Reachable r → Reachable (clearTitleState r)

/-! ### Lemmas about the association-list map -/

theorem mapGet_eq_none_iff (k : Int) (m : List (Int × String)) :
    mapGet k m = none ↔ k ∉ mapKeys m := by
  induction m with
  | nil => simp [mapGet, mapKeys]
  | cons p m ih =>
    obtain ⟨k', v⟩ := p
    by_cases h : k' = k
    · subst h
      simp [mapGet, mapKeys]
    · simp only [mapGet, if_neg h, mapKeys, List.map_cons, List.mem_cons] at ih ⊢
      rw [ih]
      constructor
      · intro hn hmem
        rcases hmem with hmem | hmem
        · exact h hmem.symm
        · exact hn hmem
      · intro hn hmem
        exact hn (Or.inr hmem)

theorem mem_of_mapGet_eq_some {k : Int} {v : String} {m : List (Int × String)}
    (h : mapGet k m = some v) : (k, v) ∈ m := by
  induction m with
  | nil => simp [mapGet] at h
  | cons p m ih =>
    obtain ⟨k', v'⟩ := p
    by_cases hk : k' = k
    · subst hk
      simp [mapGet] at h
      subst h
      exact List.mem_cons_self _ _
    · simp [mapGet, hk] at h
      exact List.mem_cons_of_mem _ (ih h)

theorem mapGet_mapDelete_self (k : Int) (m : List (Int × String)) :
    mapGet k (mapDelete k m) = none := by
  rw [mapGet_eq_none_iff]
  intro hmem
  simp only [mapDelete, mapKeys] at hmem
  obtain ⟨p, hp, rfl⟩ := List.mem_map.mp hmem
  have := (List.mem_filter.mp hp).2
  simp at this

theorem mapGet_none_mapDelete {k : Int} (k' : Int) {m : List (Int × String)}
    (h : mapGet k m = none) : mapGet k (mapDelete k' m) = none := by
  rw [mapGet_eq_none_iff] at h ⊢
  intro hmem
  apply h
  simp only [mapDelete, mapKeys] at hmem ⊢
  obtain ⟨p, hp, rfl⟩ := List.mem_map.mp hmem
  exact List.mem_map_of_mem _ (List.mem_of_mem_filter hp)

theorem mapDelete_of_mapGet_none {k : Int} {m : List (Int × String)}
    (h : mapGet k m = none) : mapDelete k m = m := by
  rw [mapGet_eq_none_iff] at h
  apply List.filter_eq_self.mpr
  intro p hp
  simp only [decide_eq_true_eq]
  intro hk
  exact h (hk ▸ List.mem_map_of_mem Prod.fst hp)

theorem mapSet_of_not_mem {k : Int} (v : String) {m : List (Int × String)}
    (h : k ∉ mapKeys m) : mapSet k v m = m ++ [(k, v)] := by
  simp [mapSet, h]

theorem mapKeys_mapSet_of_mem {k : Int} (v : String) {m : List (Int × String)}
    (h : k ∈ mapKeys m) : mapKeys (mapSet k v m) = mapKeys m := by
  unfold mapSet
  rw [if_pos h]
  unfold mapKeys
  rw [List.map_map]
  apply List.map_congr_left
  intro p _
  by_cases hp : p.1 = k
  · simp [hp]
  · simp [hp]

theorem keysNodup_mapSet (k : Int) (v : String) {m : List (Int × String)}
    (h : keysNodup m) : keysNodup (mapSet k v m) := by
  by_cases hk : k ∈ mapKeys m
  · unfold keysNodup
    rw [mapKeys_mapSet_of_mem v hk]
    exact h
  · unfold keysNodup
    rw [mapSet_of_not_mem v hk]
    unfold keysNodup at h
    unfold mapKeys at h hk ⊢
    rw [List.map_append]
    simp only [List.map_cons, List.map_nil]
    exact List.Nodup.append h (List.nodup_singleton k) (by
      intro x hx hx'
      simp at hx'
      subst hx'
      exact hk hx)

theorem keysNodup_mapDelete (k : Int) {m : List (Int × String)}
    (h : keysNodup m) : keysNodup (mapDelete k m) := by
  unfold keysNodup at h ⊢
  unfold mapKeys mapDelete
  exact List.Nodup.sublist (List.Sublist.map _ (List.filter_sublist m)) h

theorem mapGet_append_right {k : Int} {m : List (Int × String)} (v : String)
    (h : mapGet k m = none) : mapGet k (m ++ [(k, v)]) = some v := by
  induction m with
  | nil => simp [mapGet]
  | cons p m ih =>
    obtain ⟨k', v'⟩ := p
    by_cases hk : k' = k
    · subst hk
      simp [mapGet] at h
    · simp [mapGet, hk] at h ⊢
      exact ih h

theorem mapGet_replace (k : Int) (v : String) (m : List (Int × String))
    (h : k ∈ mapKeys m) :
    mapGet k (m.map (fun p => if p.1 = k then (k, v) else p)) = some v := by
  induction m with
  | nil => simp [mapKeys] at h
  | cons p m ih =>
    obtain ⟨k', v'⟩ := p
    rw [List.map_cons]
    by_cases h' : k' = k
    · subst h'
      rw [show (if ((k', v') : Int × String).1 = k' then (k', v) else (k', v')) =
          (k', v) from if_pos rfl]
      simp [mapGet]
    · rw [show (if ((k', v') : Int × String).1 = k then (k, v) else (k', v')) =
          (k', v') from if_neg h']
      have hm : k ∈ mapKeys m := by
        simp only [mapKeys, List.map_cons, List.mem_cons] at h
        exact h.resolve_left (fun he => h' he.symm)
      simp only [mapGet, if_neg h']
      exact ih hm

theorem mapGet_mapSet_self (k : Int) (v : String) (m : List (Int × String)) :
    mapGet k (mapSet k v m) = some v := by
  by_cases hk : k ∈ mapKeys m
  · unfold mapSet
    rw [if_pos hk]
    exact mapGet_replace k v m hk
  · rw [mapSet_of_not_mem v hk]
    exact mapGet_append_right v ((mapGet_eq_none_iff k m).mpr hk)

theorem mapDelete_append (k : Int) (m m' : List (Int × String)) :
    mapDelete k (m ++ m') = mapDelete k m ++ mapDelete k m' :=
  List.filter_append m m'

/-- Deleting a key and re-appending its unique entry permutes the map back to
itself. -/
theorem mapDelete_append_perm {L : Int} {t : String} {m : List (Int × String)}
    (hnd : keysNodup m) (hget : mapGet L m = some t) :
    (mapDelete L m ++ [(L, t)]).Perm m := by
  induction m with
  | nil => simp [mapGet] at hget
  | cons p m ih =>
    obtain ⟨k, v⟩ := p
    have hnd' : keysNodup m := by
      unfold keysNodup at hnd ⊢
      unfold mapKeys at hnd ⊢
      simp only [List.map_cons, List.nodup_cons] at hnd
      exact hnd.2
    by_cases hk : k = L
    · subst hk
      have hv : v = t := by simpa [mapGet] using hget
      subst hv
      have hnotin : k ∉ mapKeys m := by
        unfold keysNodup at hnd
        unfold mapKeys at hnd ⊢
        simp only [List.map_cons, List.nodup_cons] at hnd
        exact hnd.1
      have hdel : mapDelete k m = m :=
        mapDelete_of_mapGet_none ((mapGet_eq_none_iff k m).mpr hnotin)
      have hhead : mapDelete k ((k, v) :: m) = m := by
        unfold mapDelete at hdel ⊢
        simpa [List.filter_cons] using hdel
      rw [hhead]
      exact List.perm_append_singleton _ _
    · have hget' : mapGet L m = some t := by
        simpa [mapGet, hk] using hget
      have hhead : mapDelete L ((k, v) :: m) = (k, v) :: mapDelete L m := by
        simp [mapDelete, List.filter_cons, hk]
      rw [hhead, List.cons_append]
      exact List.Perm.cons _ (ih hnd' hget')

/-- In a key-unique map, the entries at a present key are exactly the one
found by lookup. -/
theorem filter_key_eq_singleton {L : Int} {t : String} {m : List (Int × String)}
    (hnd : keysNodup m) (hget : mapGet L m = some t) :
    m.filter (fun p => decide (p.1 = L)) = [(L, t)] := by
  induction m with
  | nil => simp [mapGet] at hget
  | cons p m ih =>
    obtain ⟨k, v⟩ := p
    have hnd' : keysNodup m := by
      unfold keysNodup at hnd ⊢
      unfold mapKeys at hnd ⊢
      simp only [List.map_cons, List.nodup_cons] at hnd
      exact hnd.2
    by_cases hk : k = L
    · subst hk
      have hv : v = t := by simpa [mapGet] using hget
      subst hv
      have hnotin : k ∉ mapKeys m := by
        unfold keysNodup at hnd
        unfold mapKeys at hnd ⊢
        simp only [List.map_cons, List.nodup_cons] at hnd
        exact hnd.1
      have hhead : List.filter (fun q => decide (q.1 = k)) ((k, v) :: m) =
          (k, v) :: List.filter (fun q => decide (q.1 = k)) m := by
        simp [List.filter_cons]
      rw [hhead]
      have hnil : List.filter (fun q => decide (q.1 = k)) m = [] := by
        apply List.filter_eq_nil_iff.mpr
        intro q hq
        simp only [decide_eq_true_eq]
        intro hq1
        exact hnotin (hq1 ▸ List.mem_map_of_mem Prod.fst hq)
      rw [hnil]
    · have hget' : mapGet L m = some t := by
        simpa [mapGet, hk] using hget
      simpa [List.filter_cons, hk] using ih hnd' hget'

/-! ### Lemmas about the published, sorted store array -/

theorem syncMapToStore_perm (m : List (Int × String)) :
    (syncMapToStore m).Perm (m.map (fun p => ⟨p.1, p.2⟩)) :=
  List.perm_insertionSort levelLE _

theorem mem_syncMapToStore {p : TitlePart} {m : List (Int × String)} :
    p ∈ syncMapToStore m ↔ (p.level, p.title) ∈ m := by
  rw [(syncMapToStore_perm m).mem_iff, List.mem_map]
  constructor
  · rintro ⟨q, hq, rfl⟩
    exact hq
  · intro hq
    exact ⟨(p.level, p.title), hq, rfl⟩

theorem syncMapToStore_sorted (m : List (Int × String)) :
    List.Sorted levelLE (syncMapToStore m) :=
  List.sorted_insertionSort levelLE _

/-- With unique keys, the published array is strictly ascending by level. -/
theorem syncMapToStore_strict {m : List (Int × String)} (hnd : keysNodup m) :
    (syncMapToStore m).Pairwise levelLT := by
  have hne : (m.map (fun p => (⟨p.1, p.2⟩ : TitlePart))).Pairwise
      (fun a b => a.level ≠ b.level) := by
    rw [List.pairwise_map]
    unfold keysNodup at hnd
    unfold mapKeys at hnd
    unfold List.Nodup at hnd
    rw [List.pairwise_map] at hnd
    exact hnd.imp (fun h => h)
  have hne' : (syncMapToStore m).Pairwise (fun a b => a.level ≠ b.level) :=
    ((syncMapToStore_perm m).pairwise_iff (fun h => h.symm)).mpr hne
  have hs := syncMapToStore_sorted m
  rw [List.Sorted] at hs
  exact (List.Pairwise.and hs hne').imp
    (fun h => lt_of_le_of_ne h.1 h.2)

/-- With unique keys, the published array depends only on the multiset of map
entries: permuted maps publish the same array. -/
theorem syncMapToStore_perm_congr {m m' : List (Int × String)}
    (hnd : keysNodup m) (hperm : m'.Perm m) :
    syncMapToStore m' = syncMapToStore m := by
  have hnd' : keysNodup m' := by
    unfold keysNodup at hnd ⊢
    exact (List.Perm.nodup_iff (List.Perm.map Prod.fst hperm)).mpr hnd
  have hperm2 : (syncMapToStore m').Perm (syncMapToStore m) :=
    ((syncMapToStore_perm m').trans
      (List.Perm.map _ hperm)).trans (syncMapToStore_perm m).symm
  exact List.eq_of_perm_of_sorted hperm2
    ((syncMapToStore_strict hnd').imp (fun h => h))
    ((syncMapToStore_strict hnd).imp (fun h => h))

/-! ### Lemmas about the counter reset's maximum computation -/

theorem le_foldl_max (rest : List Int) (a : Int) :
    a ≤ rest.foldl max a ∧ ∀ x ∈ rest, x ≤ rest.foldl max a := by
  induction rest generalizing a with
  | nil => simp
  | cons b rest ih =>
    have h := ih (max a b)
    refine ⟨le_trans (le_max_left a b) h.1, ?_⟩
    intro x hx
    rcases List.mem_cons.mp hx with hx | hx
    · subst hx
      exact le_trans (le_max_right a x) h.1
    · exact h.2 x hx

theorem foldl_max_mem (rest : List Int) (a : Int) :
    rest.foldl max a = a ∨ rest.foldl max a ∈ rest := by
  induction rest generalizing a with
  | nil => simp
  | cons b rest ih =>
    rcases ih (max a b) with h | h
    · rcases max_choice a b with hm | hm
      · left
        rw [List.foldl_cons, h, hm]
      · right
        rw [List.foldl_cons, h, hm]
        exact List.mem_cons_self _ _
    · right
      exact List.mem_cons_of_mem _ h

/-! ### Claim theorems -/

/-- C1: for every registry state, `resetLevelCounter()` leaves the parts and
the separator untouched and sets the auto-level counter to the maximum of the
currently active levels (excluding the `OVERRIDE_LEVEL` sentinel) plus one,
or to `0` when no non-sentinel part is active; in particular, with levels
`{0, 1}` active, the next `getNextLevel()` returns `2`, not `0` (see the
witness). -/
theorem resetLevelCounter_continues_after_max (r : Registry) :
    ((resetLevelCounter r).titlePartsMap = r.titlePartsMap ∧
      (resetLevelCounter r).titleParts = r.titleParts ∧
      (resetLevelCounter r).titleSeparator = r.titleSeparator) ∧
    (activeLevels r = [] → (resetLevelCounter r).renderCounter = 0) ∧
    ∀ mx, mx ∈ activeLevels r → (∀ l ∈ activeLevels r, l ≤ mx) →
      (resetLevelCounter r).renderCounter = mx + 1 := by
  refine ⟨⟨rfl, rfl, rfl⟩, ?_, ?_⟩
  · intro h
    simp [resetLevelCounter, h]
  · intro mx hmem hub
    cases heq : activeLevels r with
    | nil =>
      rw [heq] at hmem
      simp at hmem
    | cons a rest =>
      have hfold_mem : rest.foldl max a ∈ a :: rest := by
        rcases foldl_max_mem rest a with h | h
        · rw [h]
          exact List.mem_cons_self _ _
        · exact List.mem_cons_of_mem _ h
      have h1 : rest.foldl max a ≤ mx := hub _ (heq ▸ hfold_mem)
      have h2 : mx ≤ rest.foldl max a := by
        rw [heq] at hmem
        rcases List.mem_cons.mp hmem with h | h
        · subst h
          exact (le_foldl_max rest mx).1
        · exact (le_foldl_max rest a).2 mx h
      have hmx : rest.foldl max a = mx := le_antisymm h1 h2
      simp [resetLevelCounter, heq, hmx]

/-- Witness for C1: after parts at levels `0` and `1` are registered,
`resetLevelCounter()` makes the next auto-assigned level `2`. -/
theorem resetLevelCounter_continues_after_max_witness :
    (getNextLevel (resetLevelCounter
      (setTitlePart 1 "Section" (setTitlePart 0 "Root" initialRegistry)))).1 = 2 := by
  have h := (resetLevelCounter_continues_after_max
      (setTitlePart 1 "Section" (setTitlePart 0 "Root" initialRegistry))).2.2 1
      (by decide) (by decide)
  simpa [getNextLevel] using h

/-- C6: `setSeparator(value)` fails with the invalid-argument error exactly
when `value` is the empty string; every non-empty value is stored as the
registry's active separator, leaving parts and counter untouched, and the
subsequently built cascade uses the new separator. (On the empty-string
failure the function throws before touching the store, so no state
changes.) -/
theorem setSeparator_empty_iff_error (r : Registry) (v : String) :
    (v = "" → setSeparator v r =
      Except.error "Invalid separator: empty string is not allowed.") ∧
    (v ≠ "" → setSeparator v r = Except.ok { r with titleSeparator := v }) ∧
    ∀ r', setSeparator v r = Except.ok r' →
      r'.titleSeparator = v ∧ r'.titlePartsMap = r.titlePartsMap ∧
      r'.titleParts = r.titleParts ∧ r'.renderCounter = r.renderCounter ∧
      cascade r' = buildTitleTyped r.titleParts v := by
  refine ⟨?_, ?_, ?_⟩
  · intro h
    simp [setSeparator, h]
  · intro h
    simp [setSeparator, h]
  · intro r' h
    by_cases hv : v = ""
    · simp [setSeparator, hv] at h
    · simp only [setSeparator, if_neg hv] at h
      obtain rfl : ({ r with titleSeparator := v } : Registry) = r' :=
        Except.ok.inj h
      exact ⟨rfl, rfl, rfl, rfl, rfl⟩

/-- Witness for C6: a concrete non-empty separator is accepted and stored;
the empty separator is rejected. -/
theorem setSeparator_empty_iff_error_witness :
    setSeparator " | " initialRegistry =
      Except.ok { initialRegistry with titleSeparator := " | " } ∧
    setSeparator "" initialRegistry =
      Except.error "Invalid separator: empty string is not allowed." :=
  ⟨(setSeparator_empty_iff_error initialRegistry " | ").2.1 (by decide),
   (setSeparator_empty_iff_error initialRegistry "").1 rfl⟩

/-- C9: `clearTitleState()` empties the part map and the published array,
resets the separator to the default and the counter to `0`; its result is
independent of the prior state, so when two executions each clear before
running, nothing set in one is observable in the other. -/
theorem clearTitleState_resets_and_isolates :
    (∀ r : Registry, (clearTitleState r).titlePartsMap = [] ∧
      (clearTitleState r).titleParts = [] ∧
      (clearTitleState r).titleSeparator = DEFAULT_SEPARATOR ∧
      (clearTitleState r).renderCounter = 0) ∧
    (∀ r : Registry, clearTitleState r = initialRegistry) ∧
    ∀ rA rB : Registry, clearTitleState rA = clearTitleState rB :=
  ⟨fun _ => ⟨rfl, rfl, rfl, rfl⟩, fun _ => rfl, fun _ _ => rfl⟩

theorem diag_count (raw : List RawEntry) :
    (raw.filter (fun e => !isValidTitlePart e)).length +
      (raw.filterMap asTitlePart).length = raw.length := by
  induction raw with
  | nil => rfl
  | cons e raw ih =>
    cases he : asTitlePart e with
    | some p =>
      rw [List.filter_cons, List.filterMap_cons_some he,
        if_neg (by simp [isValidTitlePart, he])]
      simp only [List.length_cons]
      omega
    | none =>
      rw [List.filter_cons, List.filterMap_cons_none he,
        if_pos (by simp [isValidTitlePart, he])]
      simp only [List.length_cons]
      omega

/-- C7: `buildTitle` never aborts on a sequence: each structurally invalid
entry is discarded (one diagnostic per dropped entry) and the result is the
cascade computed over the remaining valid entries; the invalid-argument
failure occurs exactly when the input is not a sequence at all. -/
theorem buildTitle_drops_invalid_entries (input : BuildInput) (sep : String) :
    (∀ rawParts, input = BuildInput.arr rawParts →
      buildTitle input sep =
        Except.ok (buildTitleTyped (rawParts.filterMap asTitlePart) sep) ∧
      (∀ e ∈ buildDiagnostics input, isValidTitlePart e = false) ∧
      (buildDiagnostics input).length + (rawParts.filterMap asTitlePart).length
        = rawParts.length) ∧
    ((∃ msg, buildTitle input sep = Except.error msg) ↔ input = BuildInput.notArr) := by
  constructor
  · rintro rawParts rfl
    refine ⟨rfl, ?_, ?_⟩
    · intro e he
      simp only [buildDiagnostics] at he
      have := (List.mem_filter.mp he).2
      simpa using this
    · exact diag_count rawParts
  · constructor
    · rintro ⟨msg, hmsg⟩
      cases input with
      | arr rawParts => simp [buildTitle] at hmsg
      | notArr => rfl
    · rintro rfl
      exact ⟨"buildTitle: parts must be an array", rfl⟩

/-- Witness for C7: a sequence with one invalid entry builds without failure,
dropping exactly that entry, while a non-sequence input fails. -/
theorem buildTitle_drops_invalid_entries_witness :
    buildTitle (BuildInput.arr
        [RawEntry.obj (some (JsVal.num 0)) (some (JsVal.str "Root")),
         RawEntry.nonObj]) " • " =
      Except.ok (buildTitleTyped
        ([RawEntry.obj (some (JsVal.num 0)) (some (JsVal.str "Root")),
          RawEntry.nonObj].filterMap asTitlePart) " • ") ∧
    (∃ msg, buildTitle BuildInput.notArr " • " = Except.error msg) :=
  ⟨((buildTitle_drops_invalid_entries (BuildInput.arr
      [RawEntry.obj (some (JsVal.num 0)) (some (JsVal.str "Root")),
       RawEntry.nonObj]) " • ").1 _ rfl).1,
   ((buildTitle_drops_invalid_entries BuildInput.notArr " • ").2).mpr rfl⟩

/-- C2: when some structurally valid entry carries the override sentinel
level, `buildTitle` returns an override entry's title, independent of the
separator and of every other entry; when the override entries agree on a
single title (in particular when there is exactly one such entry), the
result is exactly that entry's title. -/
theorem buildTitle_override_wins (rawParts : List RawEntry) (sep sep' : String)
    (p : TitlePart) (hp : p ∈ rawParts.filterMap asTitlePart)
    (hlev : p.level = OVERRIDE_LEVEL) :
    (∃ q ∈ rawParts.filterMap asTitlePart, q.level = OVERRIDE_LEVEL ∧
      buildTitle (BuildInput.arr rawParts) sep = Except.ok q.title) ∧
    buildTitle (BuildInput.arr rawParts) sep =
      buildTitle (BuildInput.arr rawParts) sep' ∧
    ((∀ q ∈ rawParts.filterMap asTitlePart,
        q.level = OVERRIDE_LEVEL → q.title = p.title) →
      buildTitle (BuildInput.arr rawParts) sep = Except.ok p.title) := by
  have hsome : ((rawParts.filterMap asTitlePart).find?
      (fun q => decide (q.level = OVERRIDE_LEVEL))).isSome :=
    List.find?_isSome.mpr ⟨p, hp, by simp [hlev]⟩
  obtain ⟨q, hq⟩ := Option.isSome_iff_exists.mp hsome
  have hqlev : q.level = OVERRIDE_LEVEL := by
    have := List.find?_some hq
    simpa using this
  have hqmem : q ∈ rawParts.filterMap asTitlePart := List.mem_of_find?_eq_some hq
  have hbuild : ∀ s, buildTitle (BuildInput.arr rawParts) s = Except.ok q.title := by
    intro s
    simp [buildTitle, buildTitleTyped, hq]
  refine ⟨⟨q, hqmem, hqlev, hbuild sep⟩, by rw [hbuild sep, hbuild sep'], ?_⟩
  intro huniq
  rw [hbuild sep, huniq q hqmem hqlev]

/-- Witness for C2: a valid override entry beats a root part and an invalid
entry, whatever the separator. -/
theorem buildTitle_override_wins_witness :
    buildTitle (BuildInput.arr
      [RawEntry.obj (some (JsVal.num 0)) (some (JsVal.str "Root")),
       RawEntry.obj (some (JsVal.num (-1))) (some (JsVal.str "Override Title")),
       RawEntry.nonObj]) " | " = Except.ok "Override Title" :=
  (buildTitle_override_wins
    [RawEntry.obj (some (JsVal.num 0)) (some (JsVal.str "Root")),
     RawEntry.obj (some (JsVal.num (-1))) (some (JsVal.str "Override Title")),
     RawEntry.nonObj] " | " " | " ⟨-1, "Override Title"⟩
    (by decide) (by decide)).2.2 (by decide)

/-- C3: with no override entry among the valid parts, `buildTitle` joins the
titles of the entries with level `≥ 0` in strictly descending level order
with the separator; empty input, or input without a valid non-negative
entry, yields the empty string. -/
theorem buildTitle_sorts_descending (rawParts : List RawEntry) (sep : String)
    (hover : ∀ p ∈ rawParts.filterMap asTitlePart, p.level ≠ OVERRIDE_LEVEL)
    (hnd : (rawParts.filterMap asTitlePart).Pairwise
      (fun a b => a.level ≠ b.level)) :
    (∃ l : List TitlePart,
      l.Perm ((rawParts.filterMap asTitlePart).filter
        (fun p => decide (0 ≤ p.level))) ∧
      l.Pairwise (fun a b => b.level < a.level) ∧
      buildTitle (BuildInput.arr rawParts) sep =
        Except.ok (String.intercalate sep (l.map TitlePart.title))) ∧
    ((rawParts.filterMap asTitlePart).filter (fun p => decide (0 ≤ p.level)) = [] →
      buildTitle (BuildInput.arr rawParts) sep = Except.ok "") := by
  have hfind : (rawParts.filterMap asTitlePart).find?
      (fun q => decide (q.level = OVERRIDE_LEVEL)) = none := by
    rw [List.find?_eq_none]
    intro q hq
    simpa using hover q hq
  constructor
  · refine ⟨List.insertionSort levelGE
      ((rawParts.filterMap asTitlePart).filter (fun p => decide (0 ≤ p.level))),
      List.perm_insertionSort levelGE _, ?_, ?_⟩
    · have hsorted : List.Sorted levelGE (List.insertionSort levelGE
          ((rawParts.filterMap asTitlePart).filter (fun p => decide (0 ≤ p.level)))) :=
        List.sorted_insertionSort levelGE _
      have hne : ((rawParts.filterMap asTitlePart).filter
          (fun p => decide (0 ≤ p.level))).Pairwise (fun a b => a.level ≠ b.level) :=
        List.Pairwise.sublist (List.filter_sublist _) hnd
      have hne' : (List.insertionSort levelGE
          ((rawParts.filterMap asTitlePart).filter
            (fun p => decide (0 ≤ p.level)))).Pairwise
          (fun a b => a.level ≠ b.level) :=
        ((List.perm_insertionSort levelGE _).pairwise_iff
          (fun h => h.symm)).mpr hne
      rw [List.Sorted] at hsorted
      exact (List.Pairwise.and hsorted hne').imp
        (fun h => lt_of_le_of_ne h.1 (Ne.symm h.2))
    · simp [buildTitle, buildTitleTyped, hfind]
  · intro hempty
    simp [buildTitle, buildTitleTyped, hfind, hempty, String.intercalate]

/-- Witness for C3: a root and a page part cascade most-specific-first, and a
sequence with no valid non-negative entry builds the empty string. -/
theorem buildTitle_sorts_descending_witness :
    (∃ l : List TitlePart,
      l.Perm (([RawEntry.obj (some (JsVal.num 0)) (some (JsVal.str "Root")),
        RawEntry.obj (some (JsVal.num 1)) (some (JsVal.str "Page")),
        RawEntry.nonObj].filterMap asTitlePart).filter
          (fun p => decide (0 ≤ p.level))) ∧
      l.Pairwise (fun a b => b.level < a.level) ∧
      buildTitle (BuildInput.arr
        [RawEntry.obj (some (JsVal.num 0)) (some (JsVal.str "Root")),
         RawEntry.obj (some (JsVal.num 1)) (some (JsVal.str "Page")),
         RawEntry.nonObj]) " • " =
        Except.ok (String.intercalate " • " (l.map TitlePart.title))) ∧
    buildTitle (BuildInput.arr [RawEntry.nonObj]) " | " = Except.ok "" :=
  ⟨(buildTitle_sorts_descending
      [RawEntry.obj (some (JsVal.num 0)) (some (JsVal.str "Root")),
       RawEntry.obj (some (JsVal.num 1)) (some (JsVal.str "Page")),
       RawEntry.nonObj] " • " (by decide) (by decide)).1,
   (buildTitle_sorts_descending [RawEntry.nonObj] " | "
      (by decide) (by decide)).2 (by decide)⟩

/-- C4: registering the empty-string title at a level `L` through the
Binding's title effect is exactly `removeTitlePart(L)`: the resulting
registry has no part at level `L`, and no level-`L` entry reaches the
published array from which the cascade is subsequently built. -/
theorem emptyTitle_equals_remove (r : Registry) (L : Int) (_hL : 0 ≤ L) :
    (bindingTitleEffect L false "" false r).2 = removeTitlePart L r ∧
    mapGet L (bindingTitleEffect L false "" false r).2.titlePartsMap = none ∧
    ∀ p ∈ (bindingTitleEffect L false "" false r).2.titleParts, p.level ≠ L := by
  have heff : (bindingTitleEffect L false "" false r).2 = removeTitlePart L r := rfl
  refine ⟨heff, ?_, ?_⟩
  · rw [heff]
    exact mapGet_mapDelete_self L r.titlePartsMap
  · rw [heff]
    intro p hp
    have hmem : (p.level, p.title) ∈ mapDelete L r.titlePartsMap :=
      mem_syncMapToStore.mp hp
    have := (List.mem_filter.mp hmem).2
    simpa using this

/-- Witness for C4: with parts at levels `0` and `1` registered, the Binding
writing the empty title at level `1` leaves the same state as
`removeTitlePart(1)`. -/
theorem emptyTitle_equals_remove_witness :
    (bindingTitleEffect 1 false "" false
        (setTitlePart 1 "Page" (setTitlePart 0 "Root" initialRegistry))).2 =
      removeTitlePart 1 (setTitlePart 1 "Page" (setTitlePart 0 "Root" initialRegistry)) :=
  (emptyTitle_equals_remove
    (setTitlePart 1 "Page" (setTitlePart 0 "Root" initialRegistry)) 1 (by decide)).1

/-- C8: `setTitlePart(L, t)` followed by `setTitlePart(L, t2)` leaves exactly
one entry at level `L` — holding `t2` — in the map and in the published
array; moreover `setTitlePart` and `removeTitlePart` preserve key
uniqueness, so the registry never holds two titles for one level. -/
theorem setTitlePart_last_write_wins (r : Registry) (L : Int) (t t2 : String)
    (hnd : keysNodup r.titlePartsMap) :
    ((setTitlePart L t2 (setTitlePart L t r)).titlePartsMap.filter
        (fun p => decide (p.1 = L)) = [(L, t2)] ∧
      mapGet L (setTitlePart L t2 (setTitlePart L t r)).titlePartsMap = some t2 ∧
      (setTitlePart L t2 (setTitlePart L t r)).titleParts.filter
        (fun p => decide (p.level = L)) = [⟨L, t2⟩]) ∧
    (∀ L' t', keysNodup (setTitlePart L' t' r).titlePartsMap) ∧
    (∀ L', keysNodup (removeTitlePart L' r).titlePartsMap) := by
  have hmap : (setTitlePart L t2 (setTitlePart L t r)).titlePartsMap =
      mapSet L t2 (mapSet L t r.titlePartsMap) := rfl
  have hnd2 : keysNodup (mapSet L t2 (mapSet L t r.titlePartsMap)) :=
    keysNodup_mapSet L t2 (keysNodup_mapSet L t hnd)
  have hget : mapGet L (mapSet L t2 (mapSet L t r.titlePartsMap)) = some t2 :=
    mapGet_mapSet_self L t2 _
  have hfilter : (mapSet L t2 (mapSet L t r.titlePartsMap)).filter
      (fun p => decide (p.1 = L)) = [(L, t2)] :=
    filter_key_eq_singleton hnd2 hget
  refine ⟨⟨hmap ▸ hfilter, hmap ▸ hget, ?_⟩,
    fun L' t' => keysNodup_mapSet L' t' hnd,
    fun L' => keysNodup_mapDelete L' hnd⟩
  have hperm : ((setTitlePart L t2 (setTitlePart L t r)).titleParts.filter
      (fun p => decide (p.level = L))).Perm
      (((mapSet L t2 (mapSet L t r.titlePartsMap)).map
        (fun p => (⟨p.1, p.2⟩ : TitlePart))).filter
        (fun p => decide (p.level = L))) :=
    List.Perm.filter _ (syncMapToStore_perm _)
  have hmapped : ((mapSet L t2 (mapSet L t r.titlePartsMap)).map
      (fun p => (⟨p.1, p.2⟩ : TitlePart))).filter
      (fun p => decide (p.level = L)) = [⟨L, t2⟩] := by
    rw [List.filter_map]
    have hpred : ((fun p : TitlePart => decide (p.level = L)) ∘
        (fun p : Int × String => (⟨p.1, p.2⟩ : TitlePart))) =
        fun p : Int × String => decide (p.1 = L) := rfl
    rw [hpred, hfilter]
    rfl
  rw [hmapped] at hperm
  exact List.perm_singleton.mp hperm

/-- Witness for C8: two writes at level `0` leave the single entry with the
second title. -/
theorem setTitlePart_last_write_wins_witness :
    mapGet 0 (setTitlePart 0 "B" (setTitlePart 0 "A" initialRegistry)).titlePartsMap =
      some "B" :=
  (setTitlePart_last_write_wins initialRegistry 0 "A" "B" (by decide)).1.2.1

/-- Every reachable state has unique keys and a published array in sync with
the map. -/
theorem reachable_invariant {r : Registry} (h : Reachable r) :
    keysNodup r.titlePartsMap ∧ r.titleParts = syncMapToStore r.titlePartsMap := by
  induction h with
  | init => exact ⟨List.nodup_nil, rfl⟩
  | set L t _ ih => exact ⟨keysNodup_mapSet L t ih.1, rfl⟩
  | remove L _ ih => exact ⟨keysNodup_mapDelete L ih.1, rfl⟩
  | next _ ih => exact ih
  | reset _ ih => exact ih
  | sep s _ heq ih =>
    by_cases hs : s = ""
    · simp [setSeparator, hs] at heq
    · simp only [setSeparator, if_neg hs] at heq
      obtain rfl := Except.ok.inj heq
      exact ih
  | clear _ _ => exact ⟨List.nodup_nil, rfl⟩

/-- C10: in every reachable registry state — in particular after every
`setTitlePart` or `removeTitlePart` — the published parts array is strictly
ascending by level, hence holds no duplicate levels. -/
theorem titleParts_strictly_ascending {r : Registry} (h : Reachable r) :
    r.titleParts.Pairwise (fun a b => a.level < b.level) := by
  obtain ⟨hnd, hsync⟩ := reachable_invariant h
  rw [hsync]
  exact (syncMapToStore_strict hnd).imp (fun h => h)

/-- Witness for C10: a concrete reachable state, built by two writes in
descending level order, publishes a strictly ascending array. -/
theorem titleParts_strictly_ascending_witness :
    (setTitlePart 0 "Root" (setTitlePart 1 "Page" initialRegistry)).titleParts.Pairwise
      (fun a b => a.level < b.level) :=
  titleParts_strictly_ascending
    (Reachable.set 0 "Root" (Reachable.set 1 "Page" Reachable.init))

/-! ### The override toggle of the Binding -/

/-- The Binding's title effect run just after `override` flipped to `true`. -/
def toggleToOverride (L : Int) (t : String) (r : Registry) : Registry :=
  (bindingTitleEffect L true t false r).2

/-- The Binding's title effect run just after `override` flipped back to
`false`. -/
def toggleToNormal (L : Int) (t : String) (r : Registry) : Registry :=
  (bindingTitleEffect L false t true r).2

theorem toggleToOverride_eq (L : Int) (t : String) (ht : t ≠ "") (r : Registry) :
    toggleToOverride L t r = setTitlePart OVERRIDE_LEVEL t (removeTitlePart L r) := by
  simp [toggleToOverride, bindingTitleEffect, ht]

theorem toggleToNormal_eq (L : Int) (t : String) (ht : t ≠ "") (r : Registry) :
    toggleToNormal L t r = setTitlePart L t (removeTitlePart OVERRIDE_LEVEL r) := by
  simp [toggleToNormal, bindingTitleEffect, ht]

theorem mapGet_append_none {k : Int} {m : List (Int × String)}
    (m' : List (Int × String)) (h : mapGet k m = none) :
    mapGet k (m ++ m') = mapGet k m' := by
  induction m with
  | nil => simp
  | cons p m ih =>
    obtain ⟨k', v⟩ := p
    by_cases hk : k' = k
    · subst hk
      simp [mapGet] at h
    · simp only [List.cons_append, mapGet, if_neg hk] at h ⊢
      exact ih h

theorem keysNodup_of_perm {m m' : List (Int × String)}
    (h : m'.Perm m) (hnd : keysNodup m) : keysNodup m' := by
  unfold keysNodup at hnd ⊢
  unfold mapKeys at hnd ⊢
  exact (List.Perm.nodup_iff (List.Perm.map Prod.fst h)).mpr hnd

/-- One on/off override toggle of a Binding registered normally at `L` with
title `t`: the stale keys are emptied at each transition, and afterwards map
contents, published array and separator are back to the original (the map up
to entry order, which the published sorted array erases). -/
theorem toggle_cycle_core (r : Registry) (L : Int) (t : String)
    (hL : L ≠ OVERRIDE_LEVEL) (ht : t ≠ "")
    (hnd : keysNodup r.titlePartsMap)
    (hreg : mapGet L r.titlePartsMap = some t)
    (hnoov : mapGet OVERRIDE_LEVEL r.titlePartsMap = none)
    (hsync : r.titleParts = syncMapToStore r.titlePartsMap) :
    mapGet L (toggleToOverride L t r).titlePartsMap = none ∧
    mapGet OVERRIDE_LEVEL
      (toggleToNormal L t (toggleToOverride L t r)).titlePartsMap = none ∧
    keysNodup (toggleToNormal L t (toggleToOverride L t r)).titlePartsMap ∧
    mapGet L (toggleToNormal L t (toggleToOverride L t r)).titlePartsMap = some t ∧
    (toggleToNormal L t (toggleToOverride L t r)).titleParts = r.titleParts ∧
    (toggleToNormal L t (toggleToOverride L t r)).titleSeparator = r.titleSeparator ∧
    (toggleToNormal L t (toggleToOverride L t r)).titleParts =
      syncMapToStore (toggleToNormal L t (toggleToOverride L t r)).titlePartsMap := by
  have hOV : OVERRIDE_LEVEL ≠ L := Ne.symm hL
  -- the map after toggling on
  have hnoov_del : mapGet OVERRIDE_LEVEL (mapDelete L r.titlePartsMap) = none :=
    mapGet_none_mapDelete L hnoov
  have hm1 : (toggleToOverride L t r).titlePartsMap =
      mapDelete L r.titlePartsMap ++ [(OVERRIDE_LEVEL, t)] := by
    rw [toggleToOverride_eq L t ht]
    show mapSet OVERRIDE_LEVEL t (mapDelete L r.titlePartsMap) = _
    exact mapSet_of_not_mem t ((mapGet_eq_none_iff _ _).mp hnoov_del)
  -- the stale normal key is gone while override is on
  have hstale : mapGet L (toggleToOverride L t r).titlePartsMap = none := by
    rw [hm1, mapGet_append_none _ (mapGet_mapDelete_self L _)]
    simp [mapGet, hOV]
  -- the map after toggling back off
  have hdelov : mapDelete OVERRIDE_LEVEL (toggleToOverride L t r).titlePartsMap =
      mapDelete L r.titlePartsMap := by
    rw [hm1, mapDelete_append, mapDelete_of_mapGet_none hnoov_del]
    simp [mapDelete]
  have hm2 : (toggleToNormal L t (toggleToOverride L t r)).titlePartsMap =
      mapDelete L r.titlePartsMap ++ [(L, t)] := by
    rw [toggleToNormal_eq L t ht]
    show mapSet L t (mapDelete OVERRIDE_LEVEL
      (toggleToOverride L t r).titlePartsMap) = _
    rw [hdelov]
    exact mapSet_of_not_mem t
      ((mapGet_eq_none_iff _ _).mp (mapGet_mapDelete_self L _))
  have hperm : ((toggleToNormal L t (toggleToOverride L t r)).titlePartsMap).Perm
      r.titlePartsMap := by
    rw [hm2]
    exact mapDelete_append_perm hnd hreg
  have hnd2 : keysNodup (toggleToNormal L t (toggleToOverride L t r)).titlePartsMap :=
    keysNodup_of_perm hperm hnd
  have hsync2 : (toggleToNormal L t (toggleToOverride L t r)).titleParts =
      syncMapToStore (toggleToNormal L t (toggleToOverride L t r)).titlePartsMap := by
    rw [toggleToNormal_eq L t ht]
    rfl
  refine ⟨hstale, ?_, hnd2, ?_, ?_, ?_, hsync2⟩
  · rw [hm2, mapGet_append_none _ hnoov_del]
    simp [mapGet, hL]
  · rw [hm2]
    exact mapGet_append_right t (mapGet_mapDelete_self L _)
  · rw [hsync2, syncMapToStore_perm_congr hnd hperm, hsync]
  · rw [toggleToNormal_eq L t ht, toggleToOverride_eq L t ht]
    rfl

/-- C5: when a live Binding's override flag changes, the effect removes the
part under the previous mode's key in the same step that writes the new
mode's key (the old key is empty afterwards); consequently, toggling a
normally-registered Binding `override=true` then `override=false` twice in
sequence, with no other part of the context changing, reproduces the
original published array — and hence the original cascade — after each
`false` transition. -/
theorem override_toggle_roundtrip (r : Registry) (L : Int) (t : String)
    (hL : L ≠ OVERRIDE_LEVEL) (ht : t ≠ "")
    (hnd : keysNodup r.titlePartsMap)
    (hreg : mapGet L r.titlePartsMap = some t)
    (hnoov : mapGet OVERRIDE_LEVEL r.titlePartsMap = none)
    (hsync : r.titleParts = syncMapToStore r.titlePartsMap) :
    mapGet L (toggleToOverride L t r).titlePartsMap = none ∧
    mapGet OVERRIDE_LEVEL
      (toggleToNormal L t (toggleToOverride L t r)).titlePartsMap = none ∧
    (toggleToNormal L t (toggleToOverride L t r)).titleParts = r.titleParts ∧
    cascade (toggleToNormal L t (toggleToOverride L t r)) = cascade r ∧
    (toggleToNormal L t (toggleToOverride L t
      (toggleToNormal L t (toggleToOverride L t r)))).titleParts = r.titleParts ∧
    cascade (toggleToNormal L t (toggleToOverride L t
      (toggleToNormal L t (toggleToOverride L t r)))) = cascade r := by
  obtain ⟨hstale1, hov1, hnd2, hreg2, hparts2, hsep2, hsync2⟩ :=
    toggle_cycle_core r L t hL ht hnd hreg hnoov hsync
  have hnoov2 : mapGet OVERRIDE_LEVEL
      (toggleToNormal L t (toggleToOverride L t r)).titlePartsMap = none := hov1
  obtain ⟨_, _, _, _, hparts4, hsep4, _⟩ :=
    toggle_cycle_core (toggleToNormal L t (toggleToOverride L t r)) L t hL ht
      hnd2 hreg2 hnoov2 hsync2
  refine ⟨hstale1, hov1, hparts2, ?_, ?_, ?_⟩
  · unfold cascade
    rw [hparts2, hsep2]
  · rw [hparts4, hparts2]
  · unfold cascade
    rw [hparts4, hparts2, hsep4, hsep2]

/-- Witness for C5: a root part plus a normally-registered part at level `1`;
toggling the level-1 Binding to override and back restores the published
array. -/
theorem override_toggle_roundtrip_witness :
    (toggleToNormal 1 "Page" (toggleToOverride 1 "Page"
        (setTitlePart 1 "Page" (setTitlePart 0 "Root" initialRegistry)))).titleParts =
      (setTitlePart 1 "Page" (setTitlePart 0 "Root" initialRegistry)).titleParts :=
  (override_toggle_roundtrip (setTitlePart 1 "Page" (setTitlePart 0 "Root" initialRegistry))
    1 "Page" (by decide) (by decide) (by decide) (by decide) (by decide) (by decide)).2.2.1

end SvelteTitle
